import Mathlib

/-!
Verification of the image transformation / variant-cache subsystem of the
Image-Proccessing repository (NestJS server under `src/server`).

The development shallowly embeds the TypeScript source:

* `Json` models plain JavaScript values flowing through
  `ImagesService.toPlainTransformations` / `stableStringify` /
  `hashTransformations` (`images.service.ts`).  JavaScript numbers are
  modelled as `Int` (all spec fields are validated integers), and the
  `undefined` value gets its own constructor since
  `JSON.parse(JSON.stringify(x))` strips `undefined`-valued object fields.
* `sha256` is a byte-level SHA-256 over `Nat` (each word reduced mod 2^32),
  mirroring Node's `createHash('sha256').update(s).digest('hex')` on the
  UTF-8 bytes of `s`.
* The sharp pipeline of `applyTransformations` is embedded symbolically as
  the list of sharp operations it enqueues, in source order.
* `saveTransformedImage` / `transformImage` are embedded as state-passing
  functions over an association-list blob store, returning the list of
  performed effects so commit ordering can be stated.
* `TransformRateLimitGuard.canActivate` (rate limiter) is embedded over an
  association list keyed by `userId:imageId`.
-/

namespace ImgProc

/-- Generic association-list lookup (models `Map.get` / object indexing). -/
def alistGet {α : Type} : List (String × α) → String → Option α
  | [], _ => none
  | (k, v) :: t, key => if k = key then some v else alistGet t key

/-- Association-list update: replaces the first binding of `key`, or appends a
new binding (models JavaScript `Map.set`, which updates in place). -/
def alistSet {α : Type} : List (String × α) → String → α → List (String × α)
  | [], key, v => [(key, v)]
  | (k, w) :: t, key, v =>
    if k = key then (k, v) :: t else (k, w) :: alistSet t key v

/-- Plain JavaScript values as produced by `JSON.parse` plus the `undefined`
value, which `ImagesService.toPlainTransformations`
(`JSON.parse(JSON.stringify(...))`) strips from objects. Numbers are `Int`:
every numeric field of a transformation spec is a validated integer. -/
inductive Json where
  | null : Json
  | undef : Json
  | bool : Bool → Json
  | num : Int → Json
  | str : String → Json
  | arr : List Json → Json
  | obj : List (String × Json) → Json

/-- Keys of a JavaScript object (`Object.keys`); non-objects have none. -/
def jsonKeys : Json → List String
  | .obj fs => fs.map Prod.fst
  | _ => []

/-- `JSON.stringify` escaping for one character of a string literal. -/
def jsonEscapeChar (c : Char) : String :=
  if c = '"' then "\\\""
  else if c = '\\' then "\\\\"
  else if c = '\n' then "\\n"
  else if c = '\r' then "\\r"
  else if c = '\t' then "\\t"
  else String.singleton c

/-- `JSON.stringify` of a string value (quote and escape). -/
def jsonQuote (s : String) : String :=
  "\"" ++ String.join (s.toList.map jsonEscapeChar) ++ "\""

/-- Insert a pair into a list sorted by key (string order). -/
def insertByKey {α : Type} (p : String × α) : List (String × α) → List (String × α)
  | [] => [p]
  | q :: t => if p.1 ≤ q.1 then p :: q :: t else q :: insertByKey p t

/-- Sort an association list by key, modelling `Object.keys(record).sort()`
in `ImagesService.stableStringify` (JavaScript objects never hold duplicate
keys, so any comparison sort yields the same result). -/
def sortByKey {α : Type} : List (String × α) → List (String × α)
  | [] => []
  | p :: t => insertByKey p (sortByKey t)

theorem sizeOf_insertByKey {α : Type} [SizeOf α] (p : String × α) (l : List (String × α)) :
    sizeOf (insertByKey p l) = 1 + sizeOf p + sizeOf l := by
  induction l with
  | nil =>
    simp only [insertByKey, List.cons.sizeOf_spec, List.nil.sizeOf_spec]
  | cons q t ih =>
    simp only [insertByKey]
    split
    · simp only [List.cons.sizeOf_spec]
    · simp only [List.cons.sizeOf_spec, ih]
      omega

theorem sizeOf_sortByKey {α : Type} [SizeOf α] (l : List (String × α)) :
    sizeOf (sortByKey l) = sizeOf l := by
  induction l with
  | nil => rfl
  | cons p t ih =>
    simp only [sortByKey, sizeOf_insertByKey, ih, List.cons.sizeOf_spec]

mutual

/-- `ImagesService.stableStringify`: deterministic serialization with object
keys sorted lexicographically at every nesting level, array order kept. -/
def stableStringify : Json → String
  | .null => "null"
  | .undef => "undefined"
  | .bool b => if b then "true" else "false"
  | .num n => toString n
  | .str s => jsonQuote s
  | .arr xs => "[" ++ String.intercalate "," (stringifyList xs) ++ "]"
  | .obj fs => "\x7b" ++ String.intercalate "," (stringifyEntries (sortByKey fs)) ++ "\x7d"
termination_by j => sizeOf j
decreasing_by
  all_goals simp_wf
  all_goals try simp only [sizeOf_sortByKey]
  all_goals omega

/-- Serialize array elements in order. -/
def stringifyList : List Json → List String
  | [] => []
  | x :: xs => stableStringify x :: stringifyList xs
termination_by xs => sizeOf xs
decreasing_by
  all_goals simp_wf
  all_goals omega

/-- Serialize already-sorted object entries as `"key":value`. -/
def stringifyEntries : List (String × Json) → List String
  | [] => []
  | (k, v) :: t => (jsonQuote k ++ ":" ++ stableStringify v) :: stringifyEntries t
termination_by l => sizeOf l
decreasing_by
  all_goals simp_wf
  all_goals omega

end

/-! ### SHA-256 (Node `crypto.createHash('sha256')`)

Byte-level SHA-256 with 32-bit words represented as `Nat` reduced modulo
`2 ^ 32`.  `hashTransformations` hashes the UTF-8 bytes of the stable
serialization and keeps the first 20 hex characters (`.slice(0, 20)`). -/

/-- Truncate to a 32-bit word. -/
def w32 (n : Nat) : Nat := n % 4294967296

/-- Right rotation of a 32-bit word. -/
def rotr32 (n x : Nat) : Nat := w32 (x / 2 ^ n + x % 2 ^ n * 2 ^ (32 - n))

/-- Logical right shift. -/
def shr32 (n x : Nat) : Nat := x / 2 ^ n

/-- 32-bit complement (arguments are kept below `2 ^ 32`). -/
def bnot32 (x : Nat) : Nat := 4294967295 - x

/-- SHA-256 `Ch` function. -/
def sha256Ch (x y z : Nat) : Nat := (x &&& y) ^^^ (bnot32 x &&& z)

/-- SHA-256 `Maj` function. -/
def sha256Maj (x y z : Nat) : Nat := (x &&& y) ^^^ (x &&& z) ^^^ (y &&& z)

/-- SHA-256 Σ₀. -/
def bigSigma0 (x : Nat) : Nat := rotr32 2 x ^^^ rotr32 13 x ^^^ rotr32 22 x

/-- SHA-256 Σ₁. -/
def bigSigma1 (x : Nat) : Nat := rotr32 6 x ^^^ rotr32 11 x ^^^ rotr32 25 x

/-- SHA-256 σ₀. -/
def smallSigma0 (x : Nat) : Nat := rotr32 7 x ^^^ rotr32 18 x ^^^ shr32 3 x

/-- SHA-256 σ₁. -/
def smallSigma1 (x : Nat) : Nat := rotr32 17 x ^^^ rotr32 19 x ^^^ shr32 10 x

/-- SHA-256 round constants. -/
def sha256K : List Nat :=
  [1116352408, 1899447441, 3049323471, 3921009573,
   961987163, 1508970993, 2453635748, 2870763221,
   3624381080, 310598401, 607225278, 1426881987,
   1925078388, 2162078206, 2614888103, 3248222580,
   3835390401, 4022224774, 264347078, 604807628,
   770255983, 1249150122, 1555081692, 1996064986,
   2554220882, 2821834349, 2952996808, 3210313671,
   3336571891, 3584528711, 113926993, 338241895,
   666307205, 773529912, 1294757372, 1396182291,
   1695183700, 1986661051, 2177026350, 2456956037,
   2730485921, 2820302411, 3259730800, 3345764771,
   3516065817, 3600352804, 4094571909, 275423344,
   430227734, 506948616, 659060556, 883997877,
   958139571, 1322822218, 1537002063, 1747873779,
   1955562222, 2024104815, 2227730452, 2361852424,
   2428436474, 2756734187, 3204031479, 3329325298]

/-- The eight 32-bit working registers of SHA-256. -/
structure Sha256State where
  a : Nat
  b : Nat
  c : Nat
  d : Nat
  e : Nat
  f : Nat
  g : Nat
  hh : Nat

/-- SHA-256 initial hash value. -/
def sha256Init : Sha256State :=
  ⟨1779033703, 3144134277, 1013904242, 2773480762,
   1359893119, 2600822924, 528734635, 1541459225⟩

/-- One SHA-256 round; `kw` is the round constant plus schedule word. -/
def sha256Round (s : Sha256State) (kw : Nat) : Sha256State :=
  let t1 := w32 (s.hh + bigSigma1 s.e + sha256Ch s.e s.f s.g + kw)
  let t2 := w32 (bigSigma0 s.a + sha256Maj s.a s.b s.c)
  ⟨w32 (t1 + t2), s.a, s.b, s.c, w32 (s.d + t1), s.e, s.f, s.g⟩

/-- Big-endian 32-bit words from a byte list. -/
def bytesToWords : List Nat → List Nat
  | b0 :: b1 :: b2 :: b3 :: rest =>
    (b0 * 2 ^ 24 + b1 * 2 ^ 16 + b2 * 2 ^ 8 + b3) :: bytesToWords rest
  | _ => []

/-- Extend 16 message words to the 64-word schedule. -/
def sha256Schedule (ws : List Nat) : List Nat :=
  (List.range 48).foldl
    (fun acc _ =>
      let n := acc.length
      acc ++ [w32 (smallSigma1 (acc.getD (n - 2) 0) + acc.getD (n - 7) 0 +
                   smallSigma0 (acc.getD (n - 15) 0) + acc.getD (n - 16) 0)])
    ws

/-- Compress one 64-byte block into the running state. -/
def sha256Compress (hv : Sha256State) (block : List Nat) : Sha256State :=
  let ws := sha256Schedule (bytesToWords block)
  let s := (ws.zip sha256K).foldl (fun s wk => sha256Round s (w32 (wk.1 + wk.2))) hv
  ⟨w32 (hv.a + s.a), w32 (hv.b + s.b), w32 (hv.c + s.c), w32 (hv.d + s.d),
   w32 (hv.e + s.e), w32 (hv.f + s.f), w32 (hv.g + s.g), w32 (hv.hh + s.hh)⟩

/-- The message length in bits as eight big-endian bytes. -/
def lenBytes (n : Nat) : List Nat :=
  [n / 2 ^ 56 % 256, n / 2 ^ 48 % 256, n / 2 ^ 40 % 256, n / 2 ^ 32 % 256,
   n / 2 ^ 24 % 256, n / 2 ^ 16 % 256, n / 2 ^ 8 % 256, n % 256]

/-- SHA-256 padding: `0x80`, zeros to 56 mod 64, then the 64-bit bit length. -/
def sha256Pad (msg : List Nat) : List Nat :=
  msg ++ [128] ++ List.replicate ((55 + 64 - msg.length % 64) % 64) 0 ++
    lenBytes (8 * msg.length)

/-- Fold the compression function over consecutive 64-byte blocks. -/
def sha256Blocks (s : Sha256State) (msg : List Nat) : Sha256State :=
  if hne : msg = [] then s
  else sha256Blocks (sha256Compress s (msg.take 64)) (msg.drop 64)
termination_by msg.length
decreasing_by
  simp only [List.length_drop]
  have : 0 < msg.length := List.length_pos.mpr hne
  omega

/-- Big-endian bytes of one 32-bit word. -/
def wordBytes (w : Nat) : List Nat :=
  [w / 2 ^ 24 % 256, w / 2 ^ 16 % 256, w / 2 ^ 8 % 256, w % 256]

/-- SHA-256 digest (32 bytes) of a byte message. -/
def sha256 (msg : List Nat) : List Nat :=
  let s := sha256Blocks sha256Init (sha256Pad msg)
  wordBytes s.a ++ wordBytes s.b ++ wordBytes s.c ++ wordBytes s.d ++
  wordBytes s.e ++ wordBytes s.f ++ wordBytes s.g ++ wordBytes s.hh

/-- Lowercase hexadecimal digit. -/
def hexDigit (n : Nat) : Char := "0123456789abcdef".toList.getD n '0'

/-- Two lowercase hex characters of a byte. -/
def hexByte (b : Nat) : List Char := [hexDigit (b / 16), hexDigit (b % 16)]

/-- Lowercase hex characters of a whole digest (`.digest('hex')`). -/
def sha256HexChars (msg : List Nat) : List Char :=
  ((sha256 msg).map hexByte).flatten

/-- UTF-8 bytes of a string, as Node's `hash.update(string)` consumes them. -/
def stringBytes (s : String) : List Nat := s.toUTF8.toList.map UInt8.toNat

/-- `ImagesService.hashTransformations`: SHA-256 of the stable serialization,
hex-encoded and cut to its first 20 characters (`.slice(0, 20)`). -/
def hashTransformations (t : Json) : String :=
  String.mk ((sha256HexChars (stringBytes (stableStringify t))).take 20)

/-! ### `toPlainTransformations` and spec equivalence -/

/-- Whether a value is the JavaScript `undefined`. -/
def Json.isUndef : Json → Bool
  | .undef => true
  | _ => false

mutual

/-- `ImagesService.toPlainTransformations`, i.e.
`JSON.parse(JSON.stringify(x))`: object fields whose value is `undefined`
are removed at every nesting level; `undefined` array elements become
`null` (the spec value is always an object, so the top-level `undef` case
is unreachable in practice). -/
def stripUndefined : Json → Json
  | .null => .null
  | .undef => .null
  | .bool b => .bool b
  | .num n => .num n
  | .str s => .str s
  | .arr xs => .arr (stripElems xs)
  | .obj fs => .obj (stripEntries fs)

/-- Strip array elements (`undefined` serializes as `null` inside arrays). -/
def stripElems : List Json → List Json
  | [] => []
  | x :: xs => (if x.isUndef then .null else stripUndefined x) :: stripElems xs

/-- Strip object entries, dropping `undefined`-valued fields. -/
def stripEntries : List (String × Json) → List (String × Json)
  | [] => []
  | (k, v) :: t =>
    if v.isUndef then stripEntries t else (k, stripUndefined v) :: stripEntries t

end

/-- The keys of an object are pairwise distinct (always true of a JavaScript
object, which cannot hold two fields of the same name). -/
def keysNodup {α : Type} (fs : List (String × α)) : Prop := (fs.map Prod.fst).Nodup

/-- Two specs "differ only in object key declaration order or in the presence
of `undefined` optional fields": the congruence closure of adjacent field
swaps, removal of `undefined`-valued fields, and pointwise equivalence of
field values and array elements. -/
inductive JEquiv : Json → Json → Prop where
  | refl (v : Json) : JEquiv v v
  | symm {a b : Json} : JEquiv a b → JEquiv b a
  | trans {a b c : Json} : JEquiv a b → JEquiv b c → JEquiv a c
  | swapFields (l₁ : List (String × Json)) (p q : String × Json)
      (l₂ : List (String × Json)) (hnd : keysNodup (l₁ ++ p :: q :: l₂)) :
      JEquiv (.obj (l₁ ++ p :: q :: l₂)) (.obj (l₁ ++ q :: p :: l₂))
  | dropField (l₁ : List (String × Json)) (k : String) (l₂ : List (String × Json)) :
      JEquiv (.obj (l₁ ++ (k, .undef) :: l₂)) (.obj (l₁ ++ l₂))
  | congrField (l₁ : List (String × Json)) (k : String) (v w : Json)
      (l₂ : List (String × Json)) (hvw : JEquiv v w) :
      JEquiv (.obj (l₁ ++ (k, v) :: l₂)) (.obj (l₁ ++ (k, w) :: l₂))
  | congrElem (l₁ : List Json) (v w : Json) (l₂ : List Json) (hvw : JEquiv v w) :
      JEquiv (.arr (l₁ ++ v :: l₂)) (.arr (l₁ ++ w :: l₂))

/-! ### Sorting machinery for the canonicalization proof -/

/-- Map over the values of an association list, keeping keys. -/
def mapSnd {α β : Type} (f : α → β) (l : List (String × α)) : List (String × β) :=
  l.map (fun p => (p.1, f p.2))

theorem insertByKey_perm {α : Type} (p : String × α) (l : List (String × α)) :
    List.Perm (insertByKey p l) (p :: l) := by
  induction l with
  | nil => exact List.Perm.refl _
  | cons q t ih =>
    simp only [insertByKey]
    split
    · exact List.Perm.refl _
    · exact List.Perm.trans (List.Perm.cons q ih) (List.Perm.swap p q t)

theorem sortByKey_perm {α : Type} (l : List (String × α)) :
    List.Perm (sortByKey l) l := by
  induction l with
  | nil => exact List.Perm.refl _
  | cons p t ih =>
    exact List.Perm.trans (insertByKey_perm p (sortByKey t)) (List.Perm.cons p ih)

/-- Ordering entries by key. -/
def keyLE {α : Type} (a b : String × α) : Prop := a.1 ≤ b.1

theorem pairwise_insertByKey {α : Type} {p : String × α} {l : List (String × α)}
    (hl : l.Pairwise keyLE) : (insertByKey p l).Pairwise keyLE := by
  induction l with
  | nil => simp [insertByKey]
  | cons q t ih =>
    rcases List.pairwise_cons.mp hl with ⟨hq, ht⟩
    simp only [insertByKey]
    split
    next hle =>
      refine List.pairwise_cons.mpr ⟨?_, hl⟩
      intro x hx
      rcases List.mem_cons.mp hx with rfl | hx
      · exact hle
      · exact le_trans hle (hq x hx)
    next hle =>
      refine List.pairwise_cons.mpr ⟨?_, ih ht⟩
      intro x hx
      rcases List.mem_cons.mp ((insertByKey_perm p t).mem_iff.mp hx) with rfl | hx
      · exact le_of_not_le hle
      · exact hq x hx

theorem pairwise_sortByKey {α : Type} (l : List (String × α)) :
    (sortByKey l).Pairwise keyLE := by
  induction l with
  | nil => simp [sortByKey]
  | cons p t ih => exact pairwise_insertByKey ih

/-- A key-sorted association list with distinct keys is determined by its
multiset of entries. -/
theorem sorted_nodupkeys_perm_eq {α : Type} :
    ∀ {l₁ l₂ : List (String × α)}, List.Perm l₁ l₂ →
      l₁.Pairwise keyLE → l₂.Pairwise keyLE → keysNodup l₁ → l₁ = l₂ := by
  intro l₁
  induction l₁ with
  | nil =>
    intro l₂ hp _ _ _
    exact (List.Perm.nil_eq hp).symm ▸ rfl
  | cons a t₁ ih =>
    intro l₂ hp h₁ h₂ hnd
    have hnd₂ : keysNodup l₂ := by
      have := (hp.map Prod.fst).nodup_iff.mp hnd
      exact this
    cases l₂ with
    | nil => exact absurd hp.symm.nil_eq (by simp)
    | cons b t₂ =>
      have hab : a = b := by
        by_contra hne
        have hal₂ : a ∈ b :: t₂ := hp.mem_iff.mp (List.mem_cons_self a t₁)
        have hat₂ : a ∈ t₂ := by
          rcases List.mem_cons.mp hal₂ with h | h
          · exact absurd h hne
          · exact h
        have hbl₁ : b ∈ a :: t₁ := hp.symm.mem_iff.mp (List.mem_cons_self b t₂)
        have hbt₁ : b ∈ t₁ := by
          rcases List.mem_cons.mp hbl₁ with h | h
          · exact absurd h.symm hne
          · exact h
        have h1 : a.1 ≤ b.1 := (List.pairwise_cons.mp h₁).1 b hbt₁
        have h2 : b.1 ≤ a.1 := (List.pairwise_cons.mp h₂).1 a hat₂
        have hkey : b.1 = a.1 := le_antisymm h2 h1
        have hmem : a.1 ∈ t₂.map Prod.fst := List.mem_map_of_mem Prod.fst hat₂
        have hnotin : b.1 ∉ t₂.map Prod.fst := by
          have h := hnd₂
          simp only [keysNodup, List.map_cons, List.nodup_cons] at h
          exact h.1
        exact hnotin (hkey ▸ hmem)
      subst hab
      have htp : List.Perm t₁ t₂ := hp.cons_inv
      have := ih htp (List.pairwise_cons.mp h₁).2 (List.pairwise_cons.mp h₂).2
        (by simpa [keysNodup] using (List.nodup_cons.mp (by simpa [keysNodup] using hnd)).2)
      rw [this]

theorem keys_mapSnd {α β : Type} (f : α → β) (l : List (String × α)) :
    (mapSnd f l).map Prod.fst = l.map Prod.fst := by
  induction l with
  | nil => rfl
  | cons p t ih => simp [mapSnd, ih]

theorem insertByKey_mapSnd {α β : Type} (f : α → β) (p : String × α)
    (l : List (String × α)) :
    insertByKey (p.1, f p.2) (mapSnd f l) = mapSnd f (insertByKey p l) := by
  induction l with
  | nil => rfl
  | cons q t ih =>
    simp only [mapSnd, List.map_cons, insertByKey]
    by_cases h : p.1 ≤ q.1
    · simp [h, mapSnd]
    · simp only [h, if_neg, ite_false]
      simp only [mapSnd] at ih
      simp [ih]

theorem sortByKey_mapSnd {α β : Type} (f : α → β) (l : List (String × α)) :
    sortByKey (mapSnd f l) = mapSnd f (sortByKey l) := by
  induction l with
  | nil => rfl
  | cons p t ih =>
    simp only [mapSnd, List.map_cons, sortByKey]
    simp only [mapSnd] at ih
    rw [ih]
    exact insertByKey_mapSnd f p (sortByKey t)

theorem sortByKey_eq_of_perm {α : Type} {l₁ l₂ : List (String × α)}
    (hp : List.Perm l₁ l₂) (hnd : keysNodup l₁) : sortByKey l₁ = sortByKey l₂ := by
  apply sorted_nodupkeys_perm_eq
  · exact ((sortByKey_perm l₁).trans hp).trans (sortByKey_perm l₂).symm
  · exact pairwise_sortByKey l₁
  · exact pairwise_sortByKey l₂
  · exact ((sortByKey_perm l₁).map Prod.fst).nodup_iff.mpr hnd

theorem stringifyEntries_eq_map (l : List (String × Json)) :
    stringifyEntries l =
      l.map (fun p => jsonQuote p.1 ++ ":" ++ stableStringify p.2) := by
  induction l with
  | nil => simp [stringifyEntries]
  | cons p t ih =>
    cases p
    simp [stringifyEntries, ih]

theorem stringifyList_eq_map (l : List Json) :
    stringifyList l = l.map stableStringify := by
  induction l with
  | nil => simp [stringifyList]
  | cons x t ih => simp [stringifyList, ih]

/-- Render one already-serialized entry. -/
def renderPair (p : String × String) : String := jsonQuote p.1 ++ ":" ++ p.2

theorem stringifyEntries_sortByKey (E : List (String × Json)) :
    stringifyEntries (sortByKey E) =
      (sortByKey (mapSnd stableStringify E)).map renderPair := by
  rw [stringifyEntries_eq_map, sortByKey_mapSnd]
  simp [mapSnd, List.map_map, renderPair, Function.comp]

theorem stripEntries_append (l₁ l₂ : List (String × Json)) :
    stripEntries (l₁ ++ l₂) = stripEntries l₁ ++ stripEntries l₂ := by
  induction l₁ with
  | nil => simp [stripEntries]
  | cons p t ih =>
    cases p with
    | mk k v =>
      simp only [List.cons_append, stripEntries]
      split
      · exact ih
      · simp [ih]

theorem stripElems_append (l₁ l₂ : List Json) :
    stripElems (l₁ ++ l₂) = stripElems l₁ ++ stripElems l₂ := by
  induction l₁ with
  | nil => simp [stripElems]
  | cons x t ih => simp [stripElems, ih]

theorem stripEntries_keys_sublist (l : List (String × Json)) :
    ((stripEntries l).map Prod.fst).Sublist (l.map Prod.fst) := by
  induction l with
  | nil => simp [stripEntries]
  | cons p t ih =>
    cases p with
    | mk k v =>
      simp only [stripEntries, List.map_cons]
      split
      · exact ih.trans (List.sublist_cons_self k (t.map Prod.fst))
      · simpa using List.Sublist.cons₂ k ih

theorem isUndef_iff (v : Json) : v.isUndef = true ↔ v = .undef := by
  cases v <;> simp [Json.isUndef]

theorem stripEntries_swap_perm (p q : String × Json) (l : List (String × Json)) :
    List.Perm (stripEntries (p :: q :: l)) (stripEntries (q :: p :: l)) := by
  cases p with
  | mk kp vp =>
    cases q with
    | mk kq vq =>
      simp only [stripEntries]
      by_cases hp : vp.isUndef <;> by_cases hq : vq.isUndef <;>
        simp [hp, hq]
      exact List.Perm.swap _ _ _

/-- Canonicalization invariance: equivalent specs have *equal* stable
serializations of their plain (undefined-stripped) forms, and equivalence
preserves `undefined`-ness. -/
theorem jequiv_invariant {a b : Json} (h : JEquiv a b) :
    (a = .undef ↔ b = .undef) ∧
    stableStringify (stripUndefined a) = stableStringify (stripUndefined b) := by
  induction h with
  | refl v => exact ⟨Iff.rfl, rfl⟩
  | symm _ ih => exact ⟨ih.1.symm, ih.2.symm⟩
  | trans _ _ ih1 ih2 => exact ⟨ih1.1.trans ih2.1, ih1.2.trans ih2.2⟩
  | swapFields l₁ p q l₂ hnd =>
    refine ⟨by simp, ?_⟩
    simp only [stripUndefined, stableStringify]
    have hperm : List.Perm (stripEntries (l₁ ++ p :: q :: l₂))
        (stripEntries (l₁ ++ q :: p :: l₂)) := by
      rw [stripEntries_append, stripEntries_append]
      exact List.Perm.append_left (stripEntries l₁) (stripEntries_swap_perm p q l₂)
    have hnds : keysNodup (stripEntries (l₁ ++ p :: q :: l₂)) :=
      List.Nodup.sublist (stripEntries_keys_sublist _) hnd
    have hndm : keysNodup (mapSnd stableStringify (stripEntries (l₁ ++ p :: q :: l₂))) := by
      unfold keysNodup
      rw [keys_mapSnd]
      exact hnds
    have hmp : List.Perm (mapSnd stableStringify (stripEntries (l₁ ++ p :: q :: l₂)))
        (mapSnd stableStringify (stripEntries (l₁ ++ q :: p :: l₂))) := by
      simp only [mapSnd]
      exact hperm.map _
    have := sortByKey_eq_of_perm hmp hndm
    rw [stringifyEntries_sortByKey, stringifyEntries_sortByKey]
    rw [this]
  | dropField l₁ k l₂ =>
    refine ⟨by simp, ?_⟩
    simp only [stripUndefined, stableStringify]
    rw [stripEntries_append, stripEntries_append]
    simp [stripEntries, Json.isUndef]
  | congrField l₁ k v w l₂ _ ih =>
    refine ⟨by simp, ?_⟩
    simp only [stripUndefined, stableStringify]
    rw [stripEntries_append, stripEntries_append]
    by_cases hv : v.isUndef
    · have hw : w.isUndef := by
        rw [isUndef_iff] at hv ⊢
        exact ih.1.mp hv
      simp [stripEntries, hv, hw]
    · have hw : ¬ w.isUndef := by
        rw [isUndef_iff] at hv ⊢
        exact fun hw => hv (ih.1.mpr hw)
      simp only [stripEntries, hv, hw, ite_false, Bool.false_eq_true]
      rw [stringifyEntries_sortByKey, stringifyEntries_sortByKey]
      simp [mapSnd, ih.2]
  | congrElem l₁ v w l₂ _ ih =>
    refine ⟨by simp, ?_⟩
    simp only [stripUndefined, stableStringify]
    rw [stripElems_append, stripElems_append]
    by_cases hv : v.isUndef
    · have hw : w.isUndef := by
        rw [isUndef_iff] at hv ⊢
        exact ih.1.mp hv
      simp [stripElems, hv, hw]
    · have hw : ¬ w.isUndef := by
        rw [isUndef_iff] at hv ⊢
        exact fun hw => hv (ih.1.mpr hw)
      simp only [stripElems, hv, hw, ite_false, Bool.false_eq_true]
      rw [stringifyList_eq_map, stringifyList_eq_map]
      simp [ih.2]

/-! ### Digest shape lemmas -/

theorem sha256_length (msg : List Nat) : (sha256 msg).length = 32 := by
  simp [sha256, wordBytes]

theorem hexByte_flatten_length (l : List Nat) :
    ((l.map hexByte).flatten).length = 2 * l.length := by
  induction l with
  | nil => simp
  | cons b t ih =>
    simp [hexByte, ih]
    omega

theorem sha256HexChars_length (msg : List Nat) : (sha256HexChars msg).length = 64 := by
  unfold sha256HexChars
  rw [hexByte_flatten_length, sha256_length]

theorem hexDigit_mem (n : Nat) : hexDigit n ∈ "0123456789abcdef".toList := by
  unfold hexDigit
  by_cases h : n < ("0123456789abcdef".toList).length
  · rw [List.getD_eq_getElem _ _ h]
    exact List.getElem_mem h
  · rw [List.getD_eq_default _ _ (Nat.le_of_not_lt h)]
    decide

theorem sha256HexChars_mem {msg : List Nat} {c : Char} (hc : c ∈ sha256HexChars msg) :
    c ∈ "0123456789abcdef".toList := by
  simp only [sha256HexChars] at hc
  rcases List.mem_flatten.mp hc with ⟨piece, hpiece, hcp⟩
  rcases List.mem_map.mp hpiece with ⟨b, _, rfl⟩
  rcases List.mem_cons.mp hcp with rfl | hcp'
  · exact hexDigit_mem _
  rcases List.mem_cons.mp hcp' with rfl | hcp''
  · exact hexDigit_mem _
  · simp at hcp''

/-- C1: two valid transformation specs that differ only in object key
declaration order or in the presence of `undefined` optional fields
(`JEquiv`) canonicalize to byte-identical stable serializations of their
plain forms, so `hashTransformations` returns the same ContentHash. -/
theorem hash_stability {a b : Json} (h : JEquiv a b) :
    stableStringify (stripUndefined a) = stableStringify (stripUndefined b) ∧
    hashTransformations (stripUndefined a) = hashTransformations (stripUndefined b) := by
  have hs := (jequiv_invariant h).2
  exact ⟨hs, by simp [hashTransformations, hs]⟩

/-- Witness for C1 at a concrete pair: `{rotate: 90, flip: true,
watermark: undefined}` versus `{flip: true, rotate: 90}`. -/
theorem hash_stability_witness :
    JEquiv
      (.obj [("rotate", .num 90), ("flip", .bool true), ("watermark", .undef)])
      (.obj [("flip", .bool true), ("rotate", .num 90)]) ∧
    hashTransformations
        (stripUndefined
          (.obj [("rotate", .num 90), ("flip", .bool true), ("watermark", .undef)])) =
      hashTransformations
        (stripUndefined (.obj [("flip", .bool true), ("rotate", .num 90)])) := by
  have hequiv : JEquiv
      (.obj [("rotate", .num 90), ("flip", .bool true), ("watermark", .undef)])
      (.obj [("flip", .bool true), ("rotate", .num 90)]) :=
    JEquiv.trans
      (JEquiv.dropField [("rotate", .num 90), ("flip", .bool true)] "watermark" [])
      (JEquiv.swapFields [] ("rotate", .num 90) ("flip", .bool true) []
        (by unfold keysNodup; decide))
  exact ⟨hequiv, (hash_stability hequiv).2⟩

/-- C9: the ContentHash is the first 20 characters of the lowercase
hexadecimal SHA-256 digest of the canonical serialization; in particular it
always has length exactly 20 and only lowercase hex characters. -/
theorem hash_is_truncated_sha256 (t : Json) :
    hashTransformations t =
      String.mk ((sha256HexChars (stringBytes (stableStringify t))).take 20) ∧
    (hashTransformations t).length = 20 ∧
    ∀ c ∈ (hashTransformations t).toList, c ∈ "0123456789abcdef".toList := by
  refine ⟨rfl, ?_, ?_⟩
  · show (String.mk _).length = 20
    simp [String.length, List.length_take, sha256HexChars_length]
  · intro c hc
    simp only [hashTransformations, String.toList] at hc
    exact sha256HexChars_mem (List.take_subset 20 _ hc)

/-! ### Rate limiter (`TransformRateLimitGuard`) -/

/-- Rate-limit configuration (`windowMs`, `maxRequests`). -/
structure WindowConfig where
  windowMs : Int
  maxRequests : Int
deriving DecidableEq

/-- Guard state: per-`userId:imageId` key, the recorded request timestamps
in insertion order. -/
structure GuardState where
  requestsByKey : List (String × List Int)
deriving DecidableEq

/-- `TransformRateLimitGuard.cleanup`: once at least 2000 keys exist, prune
timestamps older than the window for every key and delete keys left empty
(in-place `Map.set` keeps positions, deletion removes the entry). -/
def cleanupMap (cfg : WindowConfig) (now : Int) (m : List (String × List Int)) :
    List (String × List Int) :=
  if m.length < 2000 then m
  else
    (m.map (fun kv => (kv.1, kv.2.filter (fun ts => now - max cfg.windowMs 1000 ≤ ts)))).filter
      (fun kv => !kv.2.isEmpty)

/-- `TransformRateLimitGuard.canActivate` for one key at time `now`:
drop timestamps older than `now - max(windowMs, 1000)`; if at least
`max(maxRequests, 1)` remain, throw 429 (returning `.error`, with the map
untouched); otherwise record `now` and run `cleanup`. -/
def canActivate (cfg : WindowConfig) (st : GuardState) (key : String) (now : Int) :
    Except Unit GuardState :=
  let windowStart := now - max cfg.windowMs 1000
  let existing := (alistGet st.requestsByKey key).getD []
  let valid := existing.filter (fun ts => windowStart ≤ ts)
  if max cfg.maxRequests 1 ≤ (valid.length : Int) then
    .error ()
  else
    .ok ⟨cleanupMap cfg now (alistSet st.requestsByKey key (valid ++ [now]))⟩

/-- Run a sequence of `(key, time)` guard calls from a state, collecting
whether each call was allowed (state is kept unchanged on rejection, as the
exception propagates before any mutation). -/
def runGuard (cfg : WindowConfig) : GuardState → List (String × Int) → List Bool
  | _, [] => []
  | st, (key, now) :: rest =>
    match canActivate cfg st key now with
    | .error _ => false :: runGuard cfg st rest
    | .ok st' => true :: runGuard cfg st' rest

theorem alistGet_alistSet_self {α : Type} (l : List (String × α)) (k : String) (v : α) :
    alistGet (alistSet l k v) k = some v := by
  induction l with
  | nil => simp [alistGet, alistSet]
  | cons p t ih =>
    cases p with
    | mk k' w =>
      by_cases h : k' = k
      · simp [alistGet, alistSet, h]
      · simp [alistGet, alistSet, h, ih]

theorem alistGet_pruneMap (pred : Int → Bool) (m : List (String × List Int))
    (key : String) (vs : List Int) (hget : alistGet m key = some vs)
    (hkeep : vs.filter pred = vs) (hne : vs ≠ []) :
    alistGet ((m.map (fun kv => (kv.1, kv.2.filter pred))).filter
      (fun kv => !kv.2.isEmpty)) key = some vs := by
  induction m with
  | nil => simp [alistGet] at hget
  | cons p t ih =>
    cases p with
    | mk k' ws =>
      by_cases h : k' = key
      · subst h
        simp only [alistGet, if_pos rfl] at hget
        cases hget
        simp only [List.map_cons, List.filter_cons, hkeep]
        have hvs : vs.isEmpty = false := by
          cases vs with
          | nil => exact absurd rfl hne
          | cons a b => rfl
        simp [hvs, alistGet]
      · simp only [alistGet, if_neg h] at hget
        simp only [List.map_cons, List.filter_cons]
        split
        · simpa [alistGet, h] using ih hget
        · exact ih hget

theorem alistGet_cleanupMap (cfg : WindowConfig) (now : Int)
    (m : List (String × List Int)) (key : String) (vs : List Int)
    (hget : alistGet m key = some vs)
    (hkeep : vs.filter (fun ts => now - max cfg.windowMs 1000 ≤ ts) = vs)
    (hne : vs ≠ []) :
    alistGet (cleanupMap cfg now m) key = some vs := by
  unfold cleanupMap
  split
  · exact hget
  · exact alistGet_pruneMap _ m key vs hget hkeep hne

/-- Filtering twice with the same window predicate changes nothing, and the
fresh timestamp `now` always survives the window filter. -/
theorem valid_append_now_filter (cfg : WindowConfig) (now : Int) (existing : List Int) :
    ((existing.filter (fun ts => now - max cfg.windowMs 1000 ≤ ts)) ++ [now]).filter
        (fun ts => now - max cfg.windowMs 1000 ≤ ts) =
      (existing.filter (fun ts => now - max cfg.windowMs 1000 ≤ ts)) ++ [now] := by
  rw [List.filter_append]
  rw [List.filter_filter]
  have h1 : now - max cfg.windowMs 1000 ≤ now := by
    have : (0 : Int) ≤ max cfg.windowMs 1000 := le_trans (by norm_num) (le_max_right _ _)
    omega
  simp [h1, List.filter_congr]

/-- C3: the sliding-window limiter rejects without recording exactly when the
still-valid timestamp count reaches the maximum, records `now` and allows
otherwise, and in particular (window 60000 ms, max 20, fixed key) the 21st
call at one instant is rejected while a call after the window elapses
succeeds. -/
theorem rate_limiter_contract (cfg : WindowConfig) (st : GuardState) (key : String)
    (now : Int) :
    (max cfg.maxRequests 1 ≤
        (((((alistGet st.requestsByKey key).getD []).filter
          (fun ts => now - max cfg.windowMs 1000 ≤ ts)).length : Int)) →
      canActivate cfg st key now = .error ()) ∧
    ((((((alistGet st.requestsByKey key).getD []).filter
          (fun ts => now - max cfg.windowMs 1000 ≤ ts)).length : Int)) < max cfg.maxRequests 1 →
      ∃ st', canActivate cfg st key now = .ok st' ∧
        alistGet st'.requestsByKey key =
          some ((((alistGet st.requestsByKey key).getD []).filter
            (fun ts => now - max cfg.windowMs 1000 ≤ ts)) ++ [now])) ∧
    runGuard ⟨60000, 20⟩ ⟨[]⟩
        (List.replicate 21 ("u:i", 0) ++ [("u:i", 60001)]) =
      List.replicate 20 true ++ [false, true] := by
  refine ⟨?_, ?_, by decide⟩
  · intro hge
    simp only [canActivate]
    rw [if_pos hge]
  · intro hlt
    simp only [canActivate]
    rw [if_neg (not_le.mpr hlt)]
    refine ⟨_, rfl, ?_⟩
    exact alistGet_cleanupMap cfg now _ key _
      (alistGet_alistSet_self st.requestsByKey key _)
      (valid_append_now_filter cfg now _)
      (by simp)

/-- Witness for C3: with 20 fresh timestamps already recorded for a key, the
next call at the same instant is rejected. -/
theorem rate_limiter_contract_witness :
    canActivate ⟨60000, 20⟩ ⟨[("k", List.replicate 20 0)]⟩ "k" 0 = .error () :=
  (rate_limiter_contract ⟨60000, 20⟩ ⟨[("k", List.replicate 20 0)]⟩ "k" 0).1
    (by decide)

/-! ### Transformation DTOs (`transform-image.dto.ts`) -/

/-- The closed output-format enum `SUPPORTED_IMAGE_FORMATS`. -/
inductive SupportedImageFormat where
  | jpeg | jpg | png | webp | avif
deriving DecidableEq

/-- `ImagesService.normalizeFormat` restricted to the closed enum:
`jpg` aliases to `jpeg`, everything else is already normalized. -/
def normalizeFormat : SupportedImageFormat → SupportedImageFormat
  | .jpg => .jpeg
  | f => f

/-- `ImagesService.toStorageExtension`. -/
def toStorageExtension : SupportedImageFormat → String
  | .jpg => "jpeg"
  | .jpeg => "jpeg"
  | .png => "png"
  | .webp => "webp"
  | .avif => "avif"

/-- `ImagesService.formatToMime`. -/
def formatToMime : SupportedImageFormat → String
  | .jpg => "image/jpeg"
  | .jpeg => "image/jpeg"
  | .png => "image/png"
  | .webp => "image/webp"
  | .avif => "image/avif"

/-- Resize fit modes. -/
inductive FitMode where
  | cover | contain | fill | inside | outside
deriving DecidableEq

/-- Watermark anchor positions (sharp gravity values). -/
inductive WatermarkPosition where
  | northwest | north | northeast | west | center | east
  | southwest | south | southeast
deriving DecidableEq

/-- `ResizeDto` (validated: width, height ≥ 1). -/
structure ResizeDto where
  width : Int
  height : Int
  fit : Option FitMode
deriving DecidableEq

/-- `CropDto` (validated: width, height ≥ 1; x, y ≥ 0). -/
structure CropDto where
  width : Int
  height : Int
  x : Int
  y : Int
deriving DecidableEq

/-- `WatermarkDto` (validated: non-empty text, fontSize ∈ [12,96],
opacity ∈ [10,100]). -/
structure WatermarkDto where
  text : String
  position : Option WatermarkPosition
  fontSize : Option Int
  opacity : Option Int
deriving DecidableEq

/-- `CompressDto` (validated: quality ∈ [1,100]). -/
structure CompressDto where
  quality : Int
deriving DecidableEq

/-- `FiltersDto`. -/
structure FiltersDto where
  grayscale : Option Bool
  sepia : Option Bool
deriving DecidableEq

/-- `TransformationsDto`: the sparse set of optional operation groups. -/
structure TransformationsDto where
  resize : Option ResizeDto
  crop : Option CropDto
  rotate : Option Int
  watermark : Option WatermarkDto
  flip : Option Bool
  mirror : Option Bool
  compress : Option CompressDto
  format : Option SupportedImageFormat
  filters : Option FiltersDto
deriving DecidableEq

/-! ### Watermark layout (`buildWatermarkSvg`)

The source computes `Math.floor(h * 0.35)` and
`Math.ceil(text.length * fontSize * 0.65)` on IEEE doubles; they are
modelled here as the exact rational operations `h * 35 / 100` (floor) and
`(n * 65 + 99) / 100` (ceiling), which agree on the argument ranges the
validated DTOs admit. -/

/-- The numeric layout computed by `ImagesService.buildWatermarkSvg`:
`safe*` dimensions are forced positive, the requested font size is capped by
`max 8 ⌊0.35 h⌋`, the estimated text width is bounded by the image width,
and the box height by the image height. -/
structure WatermarkLayout where
  dynamicFontSize : Int
  svgWidth : Int
  svgHeight : Int
  opacity : Int
  text : String
deriving DecidableEq

/-- Compute the watermark layout from the requested font size and opacity
and the encoded output dimensions (absent dimensions default to 1). -/
def watermarkLayout (text : String) (fontSize opacity : Int)
    (imageWidth imageHeight : Option Int) : WatermarkLayout :=
  let safeImageWidth := max 1 (imageWidth.getD 1)
  let safeImageHeight := max 1 (imageHeight.getD 1)
  let dynamicFontSize := min fontSize (max 8 (safeImageHeight * 35 / 100))
  let estimatedTextWidth :=
    max 1 (((text.length : Int) * dynamicFontSize * 65 + 99) / 100 + 20)
  let svgWidth := min estimatedTextWidth safeImageWidth
  let svgHeight := min (max (dynamicFontSize + 16) 24) safeImageHeight
  ⟨dynamicFontSize, svgWidth, svgHeight, opacity, text⟩

/-! ### Symbolic sharp pipeline (`applyTransformations`) -/

/-- One sharp operation enqueued by `applyTransformations`, in the order the
source enqueues them.  `modulate`/`tint` carry the fixed sepia constants;
percentages stand for the source values 0.5 and 1.05 scaled by 100. -/
inductive SharpOp where
  | extract (left top width height : Int)
  | resize (width height : Int) (fit : FitMode)
  | rotate (degrees : Int)
  | flip
  | flop
  | grayscale
  | modulate (saturationPct brightnessPct : Int)
  | tint (r g b : Int)
  | encodeJpeg (quality : Int) (mozjpeg : Bool)
  | encodePng (quality compressionLevel : Int)
  | encodeWebp (quality : Int)
  | encodeAvif (quality : Int)
  | compositeWatermark (layout : WatermarkLayout) (gravity : WatermarkPosition)
deriving DecidableEq

/-- `ImagesService.applyOutputFormat`: clamp quality into [1,100] and pick
the per-format encoder; png always uses `compressionLevel: 9`, jpeg/jpg use
the mozjpeg encoder (the `default` switch arm also encodes jpeg but is
unreachable over the closed enum). -/
def applyOutputFormatOp (format : SupportedImageFormat) (quality : Int) : SharpOp :=
  let normalizedQuality := min (max quality 1) 100
  match format with
  | .jpg => .encodeJpeg normalizedQuality true
  | .jpeg => .encodeJpeg normalizedQuality true
  | .png => .encodePng normalizedQuality 9
  | .webp => .encodeWebp normalizedQuality
  | .avif => .encodeAvif normalizedQuality

/-- Crop stage ops (`if (transformations.crop) pipeline.extract(...)`). -/
def cropOps (t : TransformationsDto) : List SharpOp :=
  match t.crop with
  | some c => [.extract c.x c.y c.width c.height]
  | none => []

/-- Resize stage ops (`fit: transformations.resize.fit ?? 'cover'`). -/
def resizeOps (t : TransformationsDto) : List SharpOp :=
  match t.resize with
  | some r => [.resize r.width r.height (r.fit.getD .cover)]
  | none => []

/-- Rotate stage ops (`typeof transformations.rotate === 'number'`). -/
def rotateOps (t : TransformationsDto) : List SharpOp :=
  match t.rotate with
  | some d => [.rotate d]
  | none => []

/-- Vertical flip stage ops (`if (transformations.flip)`: JavaScript
truthiness skips `false`). -/
def flipOps (t : TransformationsDto) : List SharpOp :=
  match t.flip with
  | some true => [.flip]
  | _ => []

/-- Horizontal mirror stage ops (`if (transformations.mirror)`). -/
def mirrorOps (t : TransformationsDto) : List SharpOp :=
  match t.mirror with
  | some true => [.flop]
  | _ => []

/-- Grayscale filter ops (`if (transformations.filters?.grayscale)`). -/
def grayscaleOps (t : TransformationsDto) : List SharpOp :=
  match t.filters with
  | some f => match f.grayscale with
    | some true => [.grayscale]
    | _ => []
  | none => []

/-- Sepia filter ops: `modulate({saturation: 0.5, brightness: 1.05})` then
`tint({r: 112, g: 66, b: 20})`. -/
def sepiaOps (t : TransformationsDto) : List SharpOp :=
  match t.filters with
  | some f => match f.sepia with
    | some true => [.modulate 50 105, .tint 112 66 20]
    | _ => []
  | none => []

/-- The encode stage: target `spec.format` when present else the fallback
(`ensureOutputFormat` normalizes `jpg` to `jpeg`), quality from
`compress.quality` or the default 80. -/
def encodeStageOp (t : TransformationsDto) (fallbackFormat : SupportedImageFormat) :
    SharpOp :=
  let outputFormat :=
    match t.format with
    | some f => normalizeFormat f
    | none => normalizeFormat fallbackFormat
  let quality :=
    match t.compress with
    | some c => c.quality
    | none => 80
  applyOutputFormatOp outputFormat quality

/-- Watermark stage ops (`if (transformations.watermark?.text)`): render the
SVG from the encoded output dimensions and composite at
`position ?? 'southeast'`, using `fontSize ?? 28` and `opacity ?? 35`. -/
def watermarkOps (t : TransformationsDto) (infoWidth infoHeight : Option Int) :
    List SharpOp :=
  match t.watermark with
  | some wm =>
    if wm.text = "" then []
    else
      [.compositeWatermark
        (watermarkLayout wm.text (wm.fontSize.getD 28) (wm.opacity.getD 35)
          infoWidth infoHeight)
        (wm.position.getD .southeast)]
  | none => []

/-- The full operation sequence `ImagesService.applyTransformations` runs:
the conditional stages in source order, the unconditional encode, then the
post-encode watermark compositing (which re-reads the encoded buffer, so its
layout depends on the encoded output dimensions `infoWidth`/`infoHeight`). -/
def applyTransformationsOps (t : TransformationsDto)
    (fallbackFormat : SupportedImageFormat)
    (infoWidth infoHeight : Option Int) : List SharpOp :=
  cropOps t ++ resizeOps t ++ rotateOps t ++ flipOps t ++ mirrorOps t ++
    grayscaleOps t ++ sepiaOps t ++ [encodeStageOp t fallbackFormat] ++
    watermarkOps t infoWidth infoHeight

/-- Fixed stage index of each sharp operation (crop 0, resize 1, rotate 2,
flip 3, mirror 4, grayscale 5, sepia 6–7, encode 8, watermark 9). -/
def stageIdx : SharpOp → Nat
  | .extract _ _ _ _ => 0
  | .resize _ _ _ => 1
  | .rotate _ => 2
  | .flip => 3
  | .flop => 4
  | .grayscale => 5
  | .modulate _ _ => 6
  | .tint _ _ _ => 7
  | .encodeJpeg _ _ => 8
  | .encodePng _ _ => 8
  | .encodeWebp _ => 8
  | .encodeAvif _ => 8
  | .compositeWatermark _ _ => 9

/-- A segment of the pipeline: all its operations have stage indices inside
`[lo, hi]` and appear in strictly increasing stage order. -/
def StagedSeg (lo hi : Nat) (l : List SharpOp) : Prop :=
  (∀ op ∈ l, lo ≤ stageIdx op ∧ stageIdx op ≤ hi) ∧
  l.Pairwise (fun a b => stageIdx a < stageIdx b)

theorem StagedSeg.append {lo₁ hi₁ lo₂ hi₂ : Nat} {l₁ l₂ : List SharpOp}
    (h₁ : StagedSeg lo₁ hi₁ l₁) (h₂ : StagedSeg lo₂ hi₂ l₂)
    (hlo : lo₁ ≤ lo₂) (hhi : hi₁ ≤ hi₂) (hcross : hi₁ < lo₂) :
    StagedSeg lo₁ hi₂ (l₁ ++ l₂) := by
  constructor
  · intro op hop
    rcases List.mem_append.mp hop with hm | hm
    · exact ⟨(h₁.1 op hm).1, le_trans (h₁.1 op hm).2 hhi⟩
    · exact ⟨le_trans hlo (h₂.1 op hm).1, (h₂.1 op hm).2⟩
  · refine List.pairwise_append.mpr ⟨h₁.2, h₂.2, ?_⟩
    intro a ha b hb
    exact lt_of_le_of_lt (h₁.1 a ha).2 (lt_of_lt_of_le hcross (h₂.1 b hb).1)

theorem seg_cropOps (t : TransformationsDto) : StagedSeg 0 0 (cropOps t) := by
  cases ht : t.crop <;> simp [StagedSeg, cropOps, ht, stageIdx]

theorem seg_resizeOps (t : TransformationsDto) : StagedSeg 1 1 (resizeOps t) := by
  cases ht : t.resize <;> simp [StagedSeg, resizeOps, ht, stageIdx]

theorem seg_rotateOps (t : TransformationsDto) : StagedSeg 2 2 (rotateOps t) := by
  cases ht : t.rotate <;> simp [StagedSeg, rotateOps, ht, stageIdx]

theorem seg_flipOps (t : TransformationsDto) : StagedSeg 3 3 (flipOps t) := by
  rcases ht : t.flip with _ | b
  · simp [StagedSeg, flipOps, ht]
  · cases b <;> simp [StagedSeg, flipOps, ht, stageIdx]

theorem seg_mirrorOps (t : TransformationsDto) : StagedSeg 4 4 (mirrorOps t) := by
  rcases ht : t.mirror with _ | b
  · simp [StagedSeg, mirrorOps, ht]
  · cases b <;> simp [StagedSeg, mirrorOps, ht, stageIdx]

theorem seg_grayscaleOps (t : TransformationsDto) : StagedSeg 5 5 (grayscaleOps t) := by
  rcases ht : t.filters with _ | f
  · simp [StagedSeg, grayscaleOps, ht]
  · rcases hg : f.grayscale with _ | b
    · simp [StagedSeg, grayscaleOps, ht, hg]
    · cases b <;> simp [StagedSeg, grayscaleOps, ht, hg, stageIdx]

theorem seg_sepiaOps (t : TransformationsDto) : StagedSeg 6 7 (sepiaOps t) := by
  rcases ht : t.filters with _ | f
  · simp [StagedSeg, sepiaOps, ht]
  · rcases hg : f.sepia with _ | b
    · simp [StagedSeg, sepiaOps, ht, hg]
    · cases b <;> simp [StagedSeg, sepiaOps, ht, hg, stageIdx]

theorem stageIdx_applyOutputFormatOp (f : SupportedImageFormat) (q : Int) :
    stageIdx (applyOutputFormatOp f q) = 8 := by
  cases f <;> rfl

theorem stageIdx_encodeStageOp (t : TransformationsDto) (fb : SupportedImageFormat) :
    stageIdx (encodeStageOp t fb) = 8 := by
  unfold encodeStageOp
  exact stageIdx_applyOutputFormatOp _ _

theorem seg_encodeStage (t : TransformationsDto) (fb : SupportedImageFormat) :
    StagedSeg 8 8 [encodeStageOp t fb] := by
  refine ⟨?_, by simp⟩
  intro op hop
  rcases List.mem_singleton.mp hop with rfl
  simp [stageIdx_encodeStageOp]

theorem seg_watermarkOps (t : TransformationsDto) (w h : Option Int) :
    StagedSeg 9 9 (watermarkOps t w h) := by
  rcases ht : t.watermark with _ | wm
  · simp [StagedSeg, watermarkOps, ht]
  · by_cases he : wm.text = "" <;>
      simp [StagedSeg, watermarkOps, ht, he, stageIdx]

theorem seg_preEncode (t : TransformationsDto) :
    StagedSeg 0 7 (cropOps t ++ resizeOps t ++ rotateOps t ++ flipOps t ++
      mirrorOps t ++ grayscaleOps t ++ sepiaOps t) :=
  ((((((seg_cropOps t).append (seg_resizeOps t) (by omega) (by omega) (by omega)).append
      (seg_rotateOps t) (by omega) (by omega) (by omega)).append
      (seg_flipOps t) (by omega) (by omega) (by omega)).append
      (seg_mirrorOps t) (by omega) (by omega) (by omega)).append
      (seg_grayscaleOps t) (by omega) (by omega) (by omega)).append
      (seg_sepiaOps t) (by omega) (by omega) (by omega)

theorem seg_applyTransformationsOps (t : TransformationsDto)
    (fb : SupportedImageFormat) (w h : Option Int) :
    StagedSeg 0 9 (applyTransformationsOps t fb w h) :=
  ((seg_preEncode t).append (seg_encodeStage t fb)
      (by omega) (by omega) (by omega)).append
    (seg_watermarkOps t w h) (by omega) (by omega) (by omega)

/-- C4: the executor applies the present operations in the fixed stage order
crop, resize, rotate, flip, mirror, grayscale, sepia, encode, watermark —
whatever the spec looks like — and the watermark compositing follows the
(always present) encode stage, acting on the already-encoded output. -/
theorem pipeline_fixed_order (t : TransformationsDto) (fb : SupportedImageFormat)
    (w h : Option Int) :
    (applyTransformationsOps t fb w h).Pairwise
      (fun a b => stageIdx a < stageIdx b) ∧
    ∃ pre, applyTransformationsOps t fb w h =
        pre ++ encodeStageOp t fb :: watermarkOps t w h ∧
        ∀ op ∈ pre, stageIdx op < 8 := by
  refine ⟨(seg_applyTransformationsOps t fb w h).2, ?_⟩
  refine ⟨cropOps t ++ resizeOps t ++ rotateOps t ++ flipOps t ++ mirrorOps t ++
    grayscaleOps t ++ sepiaOps t, ?_, ?_⟩
  · simp [applyTransformationsOps]
  · intro op hop
    have := (seg_preEncode t).1 op hop
    omega

/-- Target format of an encode operation, if any. -/
def encFormatName : SharpOp → Option SupportedImageFormat
  | .encodeJpeg _ _ => some .jpeg
  | .encodePng _ _ => some .png
  | .encodeWebp _ => some .webp
  | .encodeAvif _ => some .avif
  | _ => none

/-- Quality parameter of an encode operation, if any. -/
def encQuality : SharpOp → Option Int
  | .encodeJpeg q _ => some q
  | .encodePng q _ => some q
  | .encodeWebp q => some q
  | .encodeAvif q => some q
  | _ => none

/-- Compression level of a png encode operation, if any. -/
def pngCompressionLevel : SharpOp → Option Int
  | .encodePng _ lvl => some lvl
  | _ => none

theorem applyOutputFormatOp_contract (f : SupportedImageFormat) (q : Int) :
    encFormatName (applyOutputFormatOp f q) = some (normalizeFormat f) ∧
    encQuality (applyOutputFormatOp f q) = some (min (max q 1) 100) ∧
    (normalizeFormat f = .png →
      pngCompressionLevel (applyOutputFormatOp f q) = some 9) := by
  cases f <;>
    simp [applyOutputFormatOp, encFormatName, encQuality, pngCompressionLevel,
      normalizeFormat]

theorem normalizeFormat_idem (f : SupportedImageFormat) :
    normalizeFormat (normalizeFormat f) = normalizeFormat f := by
  cases f <;> rfl

theorem encodeStageOp_eq (t : TransformationsDto) (fb : SupportedImageFormat) :
    encodeStageOp t fb =
      applyOutputFormatOp (normalizeFormat (t.format.getD fb))
        ((t.compress.map CompressDto.quality).getD 80) := by
  rcases hf : t.format with _ | f <;> rcases hc : t.compress with _ | c <;>
    simp [encodeStageOp, hf, hc]

/-- C6: the encode stage targets `spec.format` when present (with `jpg`
normalized to its alias `jpeg`) and the resource's original format
otherwise; quality is `compress.quality` with default 80, clamped into
[1, 100]; png encoding always uses the fixed maximum compression level 9. -/
theorem encode_stage_contract (t : TransformationsDto) (fb : SupportedImageFormat) :
    encFormatName (encodeStageOp t fb) = some (normalizeFormat (t.format.getD fb)) ∧
    encQuality (encodeStageOp t fb) =
      some (min (max ((t.compress.map CompressDto.quality).getD 80) 1) 100) ∧
    (t.compress = none → encQuality (encodeStageOp t fb) = some 80) ∧
    (normalizeFormat (t.format.getD fb) = .png →
      pngCompressionLevel (encodeStageOp t fb) = some 9) := by
  rw [encodeStageOp_eq]
  have hmain := applyOutputFormatOp_contract (normalizeFormat (t.format.getD fb))
    ((t.compress.map CompressDto.quality).getD 80)
  refine ⟨?_, hmain.2.1, ?_, ?_⟩
  · rw [hmain.1, normalizeFormat_idem]
  · intro hc
    rw [hmain.2.1, hc]
    norm_num
  · intro hp
    exact hmain.2.2 (by rw [normalizeFormat_idem]; exact hp)

/-- Witness for C6: a spec with no compress group keeps the default quality
80, and a png target keeps compression level 9. -/
theorem encode_stage_contract_witness :
    encQuality (encodeStageOp ⟨none, none, none, none, none, none, none,
      some .png, none⟩ .jpeg) = some 80 ∧
    pngCompressionLevel (encodeStageOp ⟨none, none, none, none, none, none, none,
      some .png, none⟩ .jpeg) = some 9 := by
  have h := encode_stage_contract ⟨none, none, none, none, none, none, none,
    some .png, none⟩ .jpeg
  exact ⟨h.2.2.1 rfl, h.2.2.2 (by rfl)⟩

/-- C10: absent optional sub-fields take fixed defaults, each independently
of the others: a resize with no fit uses `cover`; a watermark with absent
fontSize uses 28, one with absent opacity uses 35, one with absent position
uses `southeast` — the remaining watermark parameters keeping whatever was
requested (`?? 28`, `?? 35`, `?? 'southeast'` in the source). -/
theorem pipeline_defaults (t : TransformationsDto) (fb : SupportedImageFormat)
    (w h : Option Int) (r : ResizeDto) (wm : WatermarkDto) :
    (t.resize = some r → r.fit = none →
      SharpOp.resize r.width r.height .cover ∈ applyTransformationsOps t fb w h) ∧
    (t.watermark = some wm → wm.text ≠ "" → wm.fontSize = none →
      SharpOp.compositeWatermark
          (watermarkLayout wm.text 28 (wm.opacity.getD 35) w h)
          (wm.position.getD .southeast) ∈
        applyTransformationsOps t fb w h) ∧
    (t.watermark = some wm → wm.text ≠ "" → wm.opacity = none →
      SharpOp.compositeWatermark
          (watermarkLayout wm.text (wm.fontSize.getD 28) 35 w h)
          (wm.position.getD .southeast) ∈
        applyTransformationsOps t fb w h) ∧
    (t.watermark = some wm → wm.text ≠ "" → wm.position = none →
      SharpOp.compositeWatermark
          (watermarkLayout wm.text (wm.fontSize.getD 28) (wm.opacity.getD 35) w h)
          .southeast ∈
        applyTransformationsOps t fb w h) := by
  refine ⟨?_, ?_, ?_, ?_⟩
  · intro hr hf
    have hmem : SharpOp.resize r.width r.height .cover ∈ resizeOps t := by
      simp [resizeOps, hr, hf]
    simp only [applyTransformationsOps, List.mem_append]
    tauto
  · intro hw htext hfs
    have hmem : SharpOp.compositeWatermark
        (watermarkLayout wm.text 28 (wm.opacity.getD 35) w h)
        (wm.position.getD .southeast) ∈ watermarkOps t w h := by
      simp [watermarkOps, hw, htext, hfs]
    simp only [applyTransformationsOps, List.mem_append]
    tauto
  · intro hw htext hop
    have hmem : SharpOp.compositeWatermark
        (watermarkLayout wm.text (wm.fontSize.getD 28) 35 w h)
        (wm.position.getD .southeast) ∈ watermarkOps t w h := by
      simp [watermarkOps, hw, htext, hop]
    simp only [applyTransformationsOps, List.mem_append]
    tauto
  · intro hw htext hpos
    have hmem : SharpOp.compositeWatermark
        (watermarkLayout wm.text (wm.fontSize.getD 28) (wm.opacity.getD 35) w h)
        .southeast ∈ watermarkOps t w h := by
      simp [watermarkOps, hw, htext, hpos]
    simp only [applyTransformationsOps, List.mem_append]
    tauto

/-- Witness for C10 at concrete specs: a fit-less resize, and three
watermarks each missing exactly one of fontSize, opacity, position while
the other two are explicitly requested. -/
theorem pipeline_defaults_witness :
    SharpOp.resize 200 100 .cover ∈
      applyTransformationsOps
        ⟨some ⟨200, 100, none⟩, none, none, some ⟨"wm", some .north, none, some 50⟩,
          none, none, none, none, none⟩ .jpeg (some 200) (some 100) ∧
    SharpOp.compositeWatermark (watermarkLayout "wm" 28 50 (some 200) (some 100))
        .north ∈
      applyTransformationsOps
        ⟨some ⟨200, 100, none⟩, none, none, some ⟨"wm", some .north, none, some 50⟩,
          none, none, none, none, none⟩ .jpeg (some 200) (some 100) ∧
    SharpOp.compositeWatermark (watermarkLayout "wm" 40 35 (some 200) (some 100))
        .north ∈
      applyTransformationsOps
        ⟨none, none, none, some ⟨"wm", some .north, some 40, none⟩,
          none, none, none, none, none⟩ .jpeg (some 200) (some 100) ∧
    SharpOp.compositeWatermark (watermarkLayout "wm" 40 50 (some 200) (some 100))
        .southeast ∈
      applyTransformationsOps
        ⟨none, none, none, some ⟨"wm", none, some 40, some 50⟩,
          none, none, none, none, none⟩ .jpeg (some 200) (some 100) := by
  have hfont := pipeline_defaults
    ⟨some ⟨200, 100, none⟩, none, none, some ⟨"wm", some .north, none, some 50⟩,
      none, none, none, none, none⟩ .jpeg (some 200) (some 100)
    ⟨200, 100, none⟩ ⟨"wm", some .north, none, some 50⟩
  have hopac := pipeline_defaults
    ⟨none, none, none, some ⟨"wm", some .north, some 40, none⟩,
      none, none, none, none, none⟩ .jpeg (some 200) (some 100)
    ⟨200, 100, none⟩ ⟨"wm", some .north, some 40, none⟩
  have hposn := pipeline_defaults
    ⟨none, none, none, some ⟨"wm", none, some 40, some 50⟩,
      none, none, none, none, none⟩ .jpeg (some 200) (some 100)
    ⟨200, 100, none⟩ ⟨"wm", none, some 40, some 50⟩
  exact ⟨hfont.1 rfl rfl, hfont.2.1 rfl (by decide) rfl,
    hopac.2.2.1 rfl (by decide) rfl, hposn.2.2.2 rfl (by decide) rfl⟩

/-- C7 counterexample: on a 100×1 output with the minimum valid requested
font size 12, the rendered font size is 8 pixels, which exceeds 35% of the
output height (0.35 pixels) — the height-based cap has an 8-pixel floor. -/
theorem watermark_fontsize_claim_false :
    ¬ (100 * (watermarkLayout "hi" 12 35 (some 100) (some 1)).dynamicFontSize ≤
        35 * 1) := by
  decide

/-- C7 amended: the rendered font size never exceeds the height cap
`max 8 ⌊0.35·h⌋` — so it stays within 35% of the output height whenever that
cap is at least its 8-pixel floor — and the box width never exceeds the
output width (for outputs at least one pixel wide). -/
theorem watermark_layout_bounds (text : String) (fontSize opacity : Int)
    (w h : Option Int) :
    (watermarkLayout text fontSize opacity w h).dynamicFontSize ≤
      max 8 (max 1 (h.getD 1) * 35 / 100) ∧
    (8 ≤ max 1 (h.getD 1) * 35 / 100 →
      100 * (watermarkLayout text fontSize opacity w h).dynamicFontSize ≤
        35 * max 1 (h.getD 1)) ∧
    (watermarkLayout text fontSize opacity w h).svgWidth ≤ max 1 (w.getD 1) ∧
    (∀ wv, w = some wv → 1 ≤ wv →
      (watermarkLayout text fontSize opacity w h).svgWidth ≤ wv) := by
  simp only [watermarkLayout]
  refine ⟨?_, ?_, ?_, ?_⟩
  · exact min_le_right _ _
  · intro h8
    have hcap : max 8 (max 1 (h.getD 1) * 35 / 100) = max 1 (h.getD 1) * 35 / 100 :=
      max_eq_right h8
    have hdfs : min fontSize (max 8 (max 1 (h.getD 1) * 35 / 100)) ≤
        max 1 (h.getD 1) * 35 / 100 := by
      rw [hcap]
      exact min_le_right _ _
    have hmul : max 1 (h.getD 1) * 35 / 100 * 100 ≤ max 1 (h.getD 1) * 35 :=
      Int.ediv_mul_le _ (by norm_num)
    omega
  · exact min_le_right _ _
  · intro wv hwv h1
    subst hwv
    have : max 1 ((some wv).getD 1) = wv := by
      simp [Option.getD]
      omega
    rw [this] at *
    exact min_le_right _ _

/-- Witness for C7 amended bounds at a concrete 300×200 output. -/
theorem watermark_layout_bounds_witness :
    100 * (watermarkLayout "sample" 96 35 (some 300) (some 200)).dynamicFontSize ≤
      35 * max 1 ((some (200 : Int)).getD 1) ∧
    (watermarkLayout "sample" 96 35 (some 300) (some 200)).svgWidth ≤ 300 := by
  have hmain := watermark_layout_bounds "sample" 96 35 (some 300) (some 200)
  exact ⟨hmain.2.1 (by decide), hmain.2.2.2 300 rfl (by decide)⟩

/-! ### Service layer (`transformImage` / `saveTransformedImage`)

The Mongo document and the S3 blob store are modelled as pure values; the
sharp pipeline (`applyTransformations`), whose byte-level output cannot be
computed here, is a parameter of `Pipeline` type.  Each service call returns
its result together with the list of side effects it performed, in order. -/

/-- Raw artifact bytes. -/
abbrev Blob := List Nat

/-- The S3 bucket: key to object bytes. -/
structure S3Store where
  objects : List (String × Blob)
deriving DecidableEq

/-- A stored variant (`ImageVariant` schema, `createdAt` omitted: wall-clock
time is not modelled). -/
structure ImageVariantRec where
  hash : String
  key : String
  contentType : String
  format : SupportedImageFormat
  size : Nat
  width : Option Nat
  height : Option Nat
  transformations : Json

/-- An image document (`Image` schema, restricted to the fields the
transform flow reads). -/
structure ImageDocRec where
  id : String
  originalKey : String
  contentType : String
  format : SupportedImageFormat
  variants : List ImageVariantRec

/-- The result of `applyTransformations`. -/
structure TransformedResultRec where
  buffer : Blob
  contentType : String
  format : SupportedImageFormat
  width : Option Nat
  height : Option Nat

/-- Error taxonomy of the transform flow. -/
inductive ServiceError where
  | invalidSpecification
  | notFound
  | storageError
  | pipelineError
deriving DecidableEq

/-- Side effects of a service call, in execution order. -/
inductive Effect where
  | getObject (key : String)
  | runPipeline
  | uploadObject (key : String)
  | saveMetadata
deriving DecidableEq

/-- The abstract sharp pipeline: source bytes, transformation spec and
fallback format to a transformed result, or a pipeline failure. -/
def Pipeline : Type :=
  Blob → Json → SupportedImageFormat → Except Unit TransformedResultRec

/-- `ImagesService.buildVariantKey`. -/
def buildVariantKey (imageId hash : String) (format : SupportedImageFormat) :
    String :=
  "images/variants/" ++ imageId ++ "/" ++ hash ++ "." ++ toStorageExtension format

/-- The response of `saveTransformedImage` (URL construction omitted). -/
structure SaveResponse where
  imageId : String
  cached : Bool
  variant : ImageVariantRec

/-- `ImagesService.saveTransformedImage` over one owned image: reject an
absent or empty spec, hash the plain spec, return the cached variant when one
carries the same hash, otherwise fetch the source, run the pipeline, upload
the artifact bytes, and only then append the variant metadata. -/
def saveTransformedImage (pipe : Pipeline) (store : S3Store) (image : ImageDocRec)
    (transformations : Option Json) :
    Except ServiceError (SaveResponse × ImageDocRec × S3Store) × List Effect :=
  match transformations with
  | none => (.error .invalidSpecification, [])
  | some spec =>
    if (jsonKeys spec).length = 0 then (.error .invalidSpecification, [])
    else
      let plain := stripUndefined spec
      let variantHash := hashTransformations plain
      match image.variants.find? (fun v => v.hash == variantHash) with
      | some v => (.ok (⟨image.id, true, v⟩, image, store), [])
      | none =>
        match alistGet store.objects image.originalKey with
        | none => (.error .storageError, [.getObject image.originalKey])
        | some src =>
          match pipe src spec (normalizeFormat image.format) with
          | .error _ =>
            (.error .pipelineError, [.getObject image.originalKey, .runPipeline])
          | .ok transformed =>
            let variantKey := buildVariantKey image.id variantHash transformed.format
            let created : ImageVariantRec :=
              ⟨variantHash, variantKey, transformed.contentType, transformed.format,
                transformed.buffer.length, transformed.width, transformed.height,
                plain⟩
            (.ok (⟨image.id, false, created⟩,
                { image with variants := image.variants ++ [created] },
                ⟨alistSet store.objects variantKey transformed.buffer⟩),
              [.getObject image.originalKey, .runPipeline,
                .uploadObject variantKey, .saveMetadata])

/-- `ImagesService.transformImage` (preview): same validation and cache
lookup, but the result is returned without persisting anything. -/
def transformImage (pipe : Pipeline) (store : S3Store) (image : ImageDocRec)
    (transformations : Option Json) :
    Except ServiceError (Blob × String) × List Effect :=
  match transformations with
  | none => (.error .invalidSpecification, [])
  | some spec =>
    if (jsonKeys spec).length = 0 then (.error .invalidSpecification, [])
    else
      let plain := stripUndefined spec
      let variantHash := hashTransformations plain
      match image.variants.find? (fun v => v.hash == variantHash) with
      | some v =>
        match alistGet store.objects v.key with
        | none => (.error .storageError, [.getObject v.key])
        | some cached => (.ok (cached, v.contentType), [.getObject v.key])
      | none =>
        match alistGet store.objects image.originalKey with
        | none => (.error .storageError, [.getObject image.originalKey])
        | some src =>
          match pipe src spec (normalizeFormat image.format) with
          | .error _ =>
            (.error .pipelineError, [.getObject image.originalKey, .runPipeline])
          | .ok transformed =>
            (.ok (transformed.buffer, transformed.contentType),
              [.getObject image.originalKey, .runPipeline])

/-- C5: an empty transformations object — all operation groups absent — and
an absent one are both rejected with `InvalidSpecification` by the preview
and the persisting flow alike, with no effect performed. -/
theorem empty_spec_rejected (pipe : Pipeline) (store : S3Store) (image : ImageDocRec)
    (spec : Json) (hempty : (jsonKeys spec).length = 0) :
    transformImage pipe store image (some spec) =
      (.error .invalidSpecification, []) ∧
    saveTransformedImage pipe store image (some spec) =
      (.error .invalidSpecification, []) ∧
    transformImage pipe store image none = (.error .invalidSpecification, []) ∧
    saveTransformedImage pipe store image none =
      (.error .invalidSpecification, []) := by
  refine ⟨?_, ?_, rfl, rfl⟩
  · simp [transformImage, hempty]
  · simp [saveTransformedImage, hempty]

/-- Witness for C5 at the literal empty spec `{}`. -/
theorem empty_spec_rejected_witness :
    saveTransformedImage (fun _ _ _ => .error ()) ⟨[]⟩
        ⟨"i", "k", "image/jpeg", .jpeg, []⟩ (some (.obj [])) =
      (.error .invalidSpecification, []) :=
  (empty_spec_rejected (fun _ _ _ => .error ()) ⟨[]⟩
    ⟨"i", "k", "image/jpeg", .jpeg, []⟩ (.obj []) rfl).2.1

/-- Number of stored variants carrying a given hash. -/
def countHash (vs : List ImageVariantRec) (hsh : String) : Nat :=
  (vs.filter (fun v => v.hash == hsh)).length

theorem find?_append_none {α : Type} {p : α → Bool} {l₁ l₂ : List α}
    (h : l₁.find? p = none) : (l₁ ++ l₂).find? p = l₂.find? p := by
  induction l₁ with
  | nil => rfl
  | cons a t ih =>
    rw [List.find?_cons] at h
    rcases hp : p a with _ | _
    · rw [List.cons_append, List.find?_cons, hp]
      rw [hp] at h
      exact ih h
    · rw [hp] at h
      simp at h

/-- The variant record `saveTransformedImage` appends on a cache miss. -/
def mkCreatedVariant (image : ImageDocRec) (spec : Json)
    (res : TransformedResultRec) : ImageVariantRec :=
  ⟨hashTransformations (stripUndefined spec),
    buildVariantKey image.id (hashTransformations (stripUndefined spec)) res.format,
    res.contentType, res.format, res.buffer.length, res.width, res.height,
    stripUndefined spec⟩

/-- C2: with no variant yet stored for the spec's hash, a successful
`saveTransformedImage` returns `cached = false` after fetching, running the
pipeline, uploading and appending metadata; the immediate second call with
the identical spec returns `cached = true` with no effects at all (no
pipeline run, no upload), leaves the document and store untouched, and
exactly one variant with that hash exists after either call. -/
theorem save_idempotent (pipe : Pipeline) (store : S3Store) (image : ImageDocRec)
    (spec : Json) (src : Blob) (res : TransformedResultRec)
    (hkeys : ¬ (jsonKeys spec).length = 0)
    (hmiss : image.variants.find?
      (fun v => v.hash == hashTransformations (stripUndefined spec)) = none)
    (hsrc : alistGet store.objects image.originalKey = some src)
    (hpipe : pipe src spec (normalizeFormat image.format) = .ok res) :
    ∃ created image₁ store₁,
      saveTransformedImage pipe store image (some spec) =
        (.ok (⟨image.id, false, created⟩, image₁, store₁),
          [.getObject image.originalKey, .runPipeline,
            .uploadObject created.key, .saveMetadata]) ∧
      created.hash = hashTransformations (stripUndefined spec) ∧
      image₁.variants = image.variants ++ [created] ∧
      countHash image₁.variants (hashTransformations (stripUndefined spec)) = 1 ∧
      saveTransformedImage pipe store₁ image₁ (some spec) =
        (.ok (⟨image.id, true, created⟩, image₁, store₁), []) := by
  refine ⟨mkCreatedVariant image spec res,
    { image with variants := image.variants ++ [mkCreatedVariant image spec res] },
    ⟨alistSet store.objects (mkCreatedVariant image spec res).key res.buffer⟩,
    ?_, rfl, rfl, ?_, ?_⟩
  · simp only [saveTransformedImage, if_neg hkeys, hmiss, hsrc, hpipe,
      mkCreatedVariant]
  · unfold countHash
    rw [List.filter_append]
    have h1 : image.variants.filter
        (fun v => v.hash == hashTransformations (stripUndefined spec)) = [] := by
      rw [List.filter_eq_nil_iff]
      intro v hv
      have := List.find?_eq_none.mp hmiss v hv
      simpa using this
    rw [h1]
    simp [mkCreatedVariant]
  · have hfind : ((image.variants ++ [mkCreatedVariant image spec res]).find?
          (fun v => v.hash == hashTransformations (stripUndefined spec))) =
        some (mkCreatedVariant image spec res) := by
      rw [find?_append_none hmiss]
      simp [List.find?_cons, mkCreatedVariant]
    simp only [saveTransformedImage, if_neg hkeys, hfind]

/-- Does every metadata append strictly follow some artifact upload? -/
def uploadPrecedesSave : Bool → List Effect → Bool
  | _, [] => true
  | seen, e :: t =>
    match e with
    | .uploadObject _ => uploadPrecedesSave true t
    | .saveMetadata => seen && uploadPrecedesSave seen t
    | _ => uploadPrecedesSave seen t

/-- Cache-commit effects (blob upload, metadata append). -/
def isCommitEffect : Effect → Bool
  | .uploadObject _ => true
  | .saveMetadata => true
  | _ => false

/-- C8: on every `saveTransformedImage` execution the artifact upload
strictly precedes the metadata append (never the reverse), and when the
pipeline fails the call aborts with neither an upload nor an append. -/
theorem commit_ordering (pipe : Pipeline) (store : S3Store) (image : ImageDocRec)
    (transformations : Option Json) :
    uploadPrecedesSave false
      (saveTransformedImage pipe store image transformations).2 = true ∧
    ((saveTransformedImage pipe store image transformations).1 =
        .error .pipelineError →
      (saveTransformedImage pipe store image transformations).2.all
        (fun e => !isCommitEffect e) = true) := by
  unfold saveTransformedImage
  rcases transformations with _ | spec
  · exact ⟨rfl, fun _ => rfl⟩
  · dsimp only
    split
    · exact ⟨rfl, fun _ => rfl⟩
    · split
      · exact ⟨rfl, fun _ => rfl⟩
      · split
        · exact ⟨rfl, fun hcontr => by simp at hcontr⟩
        · split
          · exact ⟨rfl, fun _ => rfl⟩
          · exact ⟨rfl, fun hcontr => by simp at hcontr⟩

/-- Witness for C8: a failing pipeline yields no upload and no metadata
append. -/
theorem commit_ordering_witness :
    (saveTransformedImage (fun _ _ _ => .error ()) ⟨[("orig", [1])]⟩
        ⟨"i", "orig", "image/jpeg", .jpeg, []⟩
        (some (.obj [("flip", .bool true)]))).2.all
      (fun e => !isCommitEffect e) = true := by
  have hmain := commit_ordering (fun _ _ _ => .error ()) ⟨[("orig", [1])]⟩
    ⟨"i", "orig", "image/jpeg", .jpeg, []⟩ (some (.obj [("flip", .bool true)]))
  exact hmain.2 rfl

/-- Witness for C2 at a concrete store, document and constant pipeline. -/
theorem save_idempotent_witness :
    ∃ created image₁ store₁,
      saveTransformedImage (fun _ _ _ => .ok ⟨[2], "image/jpeg", .jpeg, none, none⟩)
          ⟨[("orig", [1])]⟩ ⟨"i", "orig", "image/jpeg", .jpeg, []⟩
          (some (.obj [("flip", .bool true)])) =
        (.ok (⟨"i", false, created⟩, image₁, store₁),
          [.getObject "orig", .runPipeline,
            .uploadObject created.key, .saveMetadata]) ∧
      created.hash =
        hashTransformations (stripUndefined (.obj [("flip", .bool true)])) ∧
      image₁.variants = [] ++ [created] ∧
      countHash image₁.variants
        (hashTransformations (stripUndefined (.obj [("flip", .bool true)]))) = 1 ∧
      saveTransformedImage (fun _ _ _ => .ok ⟨[2], "image/jpeg", .jpeg, none, none⟩)
          store₁ image₁ (some (.obj [("flip", .bool true)])) =
        (.ok (⟨"i", true, created⟩, image₁, store₁), []) :=
  save_idempotent (fun _ _ _ => .ok ⟨[2], "image/jpeg", .jpeg, none, none⟩)
    ⟨[("orig", [1])]⟩ ⟨"i", "orig", "image/jpeg", .jpeg, []⟩
    (.obj [("flip", .bool true)]) [1] ⟨[2], "image/jpeg", .jpeg, none, none⟩
    (by decide) rfl rfl rfl

end ImgProc
